import Mathlib

/-!
Verification development for the aggsig module of the secp256k1 fork
(source file src/src/modules/aggsig/main_impl.h).

The aggsig module implements an n-of-n aggregate Schnorr signing protocol.
Its scalar, field, group, SHA-256 and RFC 6979 primitives live outside the
module (spec, section 1, "Out of scope"); they are modelled here from the
spec as an abstract parameter structure `Prims` over an additive commutative
group `G`, a scalar field `ZMod n`, and an abstract RNG state `RS`.  The
aggsig functions themselves are translated line by line from the C source.

Machine byte buffers are modelled as `List ℕ` (one entry per byte); the two
32-byte halves of a 64-byte signature are modelled by their big-endian
values, since the module only ever parses or writes them whole.
-/

namespace Aggsig

/-- Big-endian integer value of a byte string, as read by
secp256k1_scalar_set_b32 and secp256k1_fe_set_b32. -/
def beVal (l : List ℕ) : ℕ := l.foldl (fun a b => 256 * a + b) 0

/-- enum nonce_progress (main_impl.h:14-24). -/
inductive Progress
  | unknown
  | other
  | ours
  | signed
  deriving DecidableEq

/-- Modelled from the spec: the external collaborators of the aggsig module
(spec section 1, "Out of scope"): `p` is the size of the base-field byte
encoding domain (a 32-byte x encoding is canonical iff its value is < p);
`maxN` is the configuration constant SECP256K1_ECMULT_MULTI_MAX_N; `gen` is
the group generator G; `quad` is secp256k1_gej_has_quad_y_var (does the
point have a square y-coordinate); `xcoord` is the normalised affine
x-coordinate serialisation (fe_normalize_var + fe_get_b32); `setXquad`
recovers the point with the given x-coordinate and square y, if any
(secp256k1_ge_set_xquad); `serP` is the 33-byte compressed point
serialisation; `sha256` is the SHA-256 primitive on byte strings; `rngInit`
and `rngGen` are the RFC 6979 HMAC-SHA256 generator (seeding, and drawing
32 bytes while advancing the state).  The group operations themselves are
taken from the ambient `AddCommGroup G` structure. -/
structure Prims (G : Type) (RS : Type) where
  p : ℕ
  maxN : ℕ
  gen : G
  quad : G → Bool
  xcoord : G → ℕ
  setXquad : ℕ → Option G
  serP : G → List ℕ
  sha256 : List ℕ → List ℕ
  rngInit : List ℕ → RS
  rngGen : RS → List ℕ × RS

variable {n : ℕ} [NeZero n] {G : Type} [AddCommGroup G] {RS : Type}

/-- secp256k1_scalar_set_b32 on a 32-byte buffer of big-endian value `v`:
the scalar is the value reduced mod the group order `n`, and the overflow
flag is set iff the value is ≥ n (spec section 3, "Scalar"). -/
def scalarSetB32 (n : ℕ) (v : ℕ) : ZMod n × Bool := ((v : ZMod n), decide (n ≤ v))

/-- Modelled from the spec: scalar multiplication of a group element by a
scalar of `ZMod n` (secp256k1_ecmult_gen when applied to the generator). -/
def smulZ (k : ZMod n) (Q : G) : G := k.val • Q

/-- The roster of public keys matching a list of secret keys (32-byte
big-endian values): the i-th public key is seckey_i·G. -/
def rosterOf (n : ℕ) [NeZero n] (P : Prims G RS) (seckeys : List ℕ) : List G :=
  seckeys.map (fun sk : ℕ => smulZ ((sk : ZMod n)) P.gen)

/-- struct secp256k1_aggsig_context_struct (main_impl.h:26-33). -/
structure Ctx (n : ℕ) (G : Type) (RS : Type) where
  progress : List Progress
  pubkeys : List G
  secnonce : List (ZMod n)
  pubnonce_sum : G
  n_sigs : ℕ
  rng : RS
  deriving DecidableEq

/-- secp256k1_aggsig_context_create (main_impl.h:74-92): progress all
UNKNOWN (the arrays are zero-filled), pubnonce_sum the identity, roster
copied, RNG seeded.  The uninitialised secnonce array is modelled as
zero-filled; it is only read at indices whose progress is OURS/SIGNED. -/
def contextCreate (n : ℕ) (P : Prims G RS) (pubkeys : List G) (seed : List ℕ) :
    Ctx n G RS where
  progress := List.replicate pubkeys.length Progress.unknown
  pubkeys := pubkeys
  secnonce := List.replicate pubkeys.length 0
  pubnonce_sum := 0
  n_sigs := pubkeys.length
  rng := P.rngInit seed

/-- Retry bound for the nonce-drawing loop of secp256k1_aggsig_generate_nonce
(main_impl.h:110-114).  The C loop is unbounded; its retry branch is
cryptographically unreachable (the comment on main_impl.h:114), and the
model truncates it at a fixed depth. -/
def rngFuel : ℕ := 64

/-- The do/while loop of secp256k1_aggsig_generate_nonce (main_impl.h:110-114):
draw 32 bytes from the RNG, parse as a scalar, retry on overflow or zero. -/
def drawNonce (P : Prims G RS) : ℕ → RS → Option (ZMod n × RS)
  | 0, _ => none
  | fuel + 1, st =>
    let d := P.rngGen st
    let kv := scalarSetB32 n (beVal d.1)
    if kv.2 = true ∨ kv.1 = 0 then drawNonce P fuel d.2 else some (kv.1, d.2)

/-- secp256k1_aggsig_generate_nonce (main_impl.h:95-125).  Returns the C
function's status together with the updated session; all failure paths of
the C function return before any mutation of the session. -/
def generateNonce (P : Prims G RS) (c : Ctx n G RS) (index : ℕ) :
    Bool × Ctx n G RS :=
  if index < c.n_sigs then
    if c.progress.getD index Progress.unknown ≠ Progress.unknown then (false, c)
    else
      match drawNonce P rngFuel c.rng with
      | none => (false, c)
      | some (k, rng2) =>
        let pubnon : G := smulZ k P.gen
        if P.quad pubnon then
          (true, { c with
            secnonce := c.secnonce.set index k
            pubnonce_sum := c.pubnonce_sum + pubnon
            progress := c.progress.set index Progress.ours
            rng := rng2 })
        else
          (true, { c with
            secnonce := c.secnonce.set index (-k)
            pubnonce_sum := c.pubnonce_sum + -pubnon
            progress := c.progress.set index Progress.ours
            rng := rng2 })
  else (false, c)

/-- secp256k1_compute_prehash (main_impl.h:36-54): SHA-256 over the 33-byte
compressed roster keys in order, the compressed aggregate nonce point, and
the 32-byte message. -/
def computePrehash (P : Prims G RS) (pubkeys : List G) (nonce_ge : G)
    (msg : List ℕ) : List ℕ :=
  P.sha256 ((pubkeys.map P.serP).flatten ++ P.serP nonce_ge ++ msg)

/-- The index-encoding while loop of secp256k1_compute_sighash
(main_impl.h:63-67): emit `index & 0x7f`, then shift right by 7, until the
index is zero.  The loop terminates because the index strictly decreases;
the structural fuel argument (initially the index itself, which bounds the
iteration count) only makes that termination measure explicit. -/
def idxBytesAux : ℕ → ℕ → List ℕ
  | _, 0 => []
  | 0, _ + 1 => []
  | fuel + 1, i + 1 => ((i + 1) % 128) :: idxBytesAux fuel ((i + 1) / 128)

def idxBytes (i : ℕ) : List ℕ := idxBytesAux i i

/-- secp256k1_compute_sighash (main_impl.h:57-72): hash the encoded index
followed by the 32-byte prehash, parse the digest as a scalar; `none` iff
the digest overflows the scalar order. -/
def computeSighash (P : Prims G RS) (prehash : List ℕ) (index : ℕ) :
    Option (ZMod n) :=
  let output := P.sha256 (idxBytes index ++ prehash)
  let rv := scalarSetB32 n (beVal output)
  if rv.2 = true then none else some rv.1

/-- The scalar challenge value delivered by secp256k1_compute_sighash when
it succeeds (defaulting to 0 where it fails). -/
def challengeAt (P : Prims G RS) (prehash : List ℕ) (index : ℕ) : ZMod n :=
  (computeSighash P prehash index).getD 0

/-- The conditional negation to the square-y representative of a point, as
performed on the aggregate nonce at signing time (the local hashing copy,
main_impl.h:157-161) and at combine time in place (main_impl.h:208-212). -/
def condNeg (P : Prims G RS) (Q : G) : G := if P.quad Q then Q else -Q

/-- The quadratic-residue flip block of secp256k1_aggsig_partial_sign
(main_impl.h:153-161): when the aggregate public nonce lacks a square y,
the signer's secret nonce is negated in place.  (The matching negation of
the local affine copy used for hashing appears as `condNeg` of the
aggregate in `partSign` below.) -/
def flipCtx (P : Prims G RS) (c : Ctx n G RS) (index : ℕ) : Ctx n G RS :=
  if P.quad c.pubnonce_sum then c
  else { c with secnonce := c.secnonce.set index (-(c.secnonce.getD index 0)) }

/-- secp256k1_aggsig_partial_sign (main_impl.h:127-180).  Returns the
32-byte partial signature (as its big-endian value) when the C function
returns 1, together with the updated session.  The session used from the
flip on is `flipCtx P c index`; the local affine copy hashed is the
conditional negation of pubnonce_sum (main_impl.h:157-161).  Failure after
the flip still returns the flipped session, exactly as the C code does. -/
def partSign (P : Prims G RS) (c : Ctx n G RS) (msg : List ℕ) (seckey : ℕ)
    (index : ℕ) : Option ℕ × Ctx n G RS :=
  if index < c.n_sigs then
    if (List.range c.n_sigs).any
        (fun i => decide (c.progress.getD i Progress.unknown = Progress.unknown)) then
      (none, c)
    else if c.progress.getD index Progress.unknown ≠ Progress.ours then (none, c)
    else
      match computeSighash P
          (computePrehash P c.pubkeys (condNeg P c.pubnonce_sum) msg) index with
      | none => (none, flipCtx P c index)
      | some sighash =>
        if (scalarSetB32 n seckey).2 = true then (none, flipCtx P c index)
        else
          (some ((scalarSetB32 n seckey).1 * sighash +
              (flipCtx P c index).secnonce.getD index 0).val,
           { flipCtx P c index with
              progress := (flipCtx P c index).progress.set index Progress.signed })
  else (none, c)

/-- The partial-parsing loop of secp256k1_aggsig_combine_signatures
(main_impl.h:197-206): sum the parsed partial scalars, failing if any
32-byte partial overflows. -/
def sumParts (n : ℕ) [NeZero n] : List ℕ → Option (ZMod n)
  | [] => some 0
  | v :: rest =>
    if (scalarSetB32 n v).2 = true then none
    else (sumParts n rest).map (fun s => s + (scalarSetB32 n v).1)

/-- secp256k1_aggsig_combine_signatures (main_impl.h:182-219).  The 64-byte
output is modelled as the pair (big-endian value of bytes 0..31, big-endian
value of bytes 32..63).  The conditional negation of pubnonce_sum happens in
place on the session, as in the C code. -/
def combineSignatures (P : Prims G RS) (c : Ctx n G RS) (parts : List ℕ) :
    Option (ℕ × ℕ) × Ctx n G RS :=
  if parts.length ≠ c.n_sigs then (none, c)
  else
    match sumParts n parts with
    | none => (none, c)
    | some s =>
      let c2 := { c with pubnonce_sum := condNeg P c.pubnonce_sum }
      (some (s.val, P.xcoord c2.pubnonce_sum), c2)

/-- Modelled from the spec: secp256k1_ecmult_multi, the batched multi-scalar
multiplication primitive, on an explicit list of (scalar, point) terms. -/
def msum [AddCommGroup G] : List (ZMod n × G) → G :=
  fun l => (l.map (fun kp => smulZ kp.1 kp.2)).sum

/-- The inner chunk-filling loop of secp256k1_aggsig_verify
(main_impl.h:310-317, non-endomorphism path): for j = 0..count-1, compute
the sighash of index `i + j`, negate it, and pair it with pubkey `i + j`;
abort if any sighash overflows. -/
def chunkTerms (P : Prims G RS) (prehash : List ℕ) (pubkeys : List G) :
    ℕ → ℕ → Option (List (ZMod n × G))
  | _, 0 => some []
  | i, count + 1 =>
    match computeSighash P prehash i with
    | none => none
    | some e =>
      (chunkTerms P prehash pubkeys (i + 1) count).map
        (fun ts => (-e, pubkeys.getD i 0) :: ts)

/-- The chunked multi-exponentiation while loop of secp256k1_aggsig_verify
(main_impl.h:303-323, non-endomorphism path).  `pre` holds the terms already
sitting in the scratch arrays before the chunk's own terms (the (s, G) term
on the first iteration, nothing afterwards); `acc` is pk_sum.  Each
iteration takes `count = min (remaining, maxN - offset)` terms, runs
ecmult_multi on `offset + count` terms, and adds the result to pk_sum.  The
C loop runs forever when it can make no progress (maxN = 0); the model
returns `none` when the fuel, amply sized by the caller, runs out. -/
def verifyLoop (P : Prims G RS) (prehash : List ℕ) (pubkeys : List G) :
    ℕ → ℕ → List (ZMod n × G) → G → Option G
  | 0, _, _, _ => none
  | fuel + 1, i, pre, acc =>
    if i < pubkeys.length then
      let count := min (pubkeys.length - i) (P.maxN - pre.length)
      match chunkTerms P prehash pubkeys i count with
      | none => none
      | some terms =>
        verifyLoop P prehash pubkeys fuel (i + count) [] (acc + msum (pre ++ terms))
    else some acc

/-- secp256k1_aggsig_verify (main_impl.h:238-329, non-endomorphism path):
fail on an empty roster; parse s (bytes 0..31) rejecting overflow; parse the
x encoding (bytes 32..63) rejecting non-canonical values; recover the point
R with that x and square y, failing if none exists; compute the prehash over
the roster, R and the message; compute s·G − Σ e_i·P_i by chunked
multi-scalar multiplication, failing if any sighash overflows; accept iff
the result minus R is the identity. -/
def verify [DecidableEq G] (P : Prims G RS) (sig : ℕ × ℕ) (msg : List ℕ)
    (pubkeys : List G) : Bool :=
  if pubkeys.length = 0 then false
  else if (scalarSetB32 n sig.1).2 = true then false
  else if P.p ≤ sig.2 then false
  else
    match P.setXquad sig.2 with
    | none => false
    | some rge =>
      match verifyLoop P (computePrehash P pubkeys rge msg) pubkeys
          (pubkeys.length + 2) 0 [((scalarSetB32 n sig.1).1, P.gen)] 0 with
      | none => false
      | some t => decide (t + -rge = 0)

/-- Driving loop for the protocol: generate_nonce on indices i, i+1, ...,
i+count-1 in order, stopping at the first failure. -/
def genFrom (P : Prims G RS) : Ctx n G RS → ℕ → ℕ → Bool × Ctx n G RS
  | c, _, 0 => (true, c)
  | c, i, count + 1 =>
    match generateNonce P c i with
    | (false, c2) => (false, c2)
    | (true, c2) => genFrom P c2 (i + 1) count

/-- generate_nonce on every index of the session, in order. -/
def genAllNonces (P : Prims G RS) (c : Ctx n G RS) : Bool × Ctx n G RS :=
  genFrom P c 0 c.n_sigs

/-- Driving loop for the protocol: partial_sign on indices i, ...,
i+count-1 in order with the matching secret keys, collecting the partial
signatures, stopping at the first failure. -/
def signFrom (P : Prims G RS) (msg : List ℕ) (seckeys : List ℕ) :
    Ctx n G RS → ℕ → ℕ → Option (List ℕ) × Ctx n G RS
  | c, _, 0 => (some [], c)
  | c, i, count + 1 =>
    match partSign P c msg (seckeys.getD i 0) i with
    | (none, c2) => (none, c2)
    | (some part, c2) =>
      match signFrom P msg seckeys c2 (i + 1) count with
      | (none, c3) => (none, c3)
      | (some ps, c3) => (some (part :: ps), c3)

/-- partial_sign on every index of the session, in order, with the matching
secret keys. -/
def signAllKeys (P : Prims G RS) (msg : List ℕ) (seckeys : List ℕ)
    (c : Ctx n G RS) : Option (List ℕ) × Ctx n G RS :=
  signFrom P msg seckeys c 0 c.n_sigs

/-- The full protocol of spec section 8, property 1: build the roster from
the secret keys, create a session, generate_nonce on every index,
partial_sign on every index with the matching secret key, and combine.
Returns the 64-byte signature and the final session state. -/
def runProtocol (n : ℕ) [NeZero n] (P : Prims G RS) (seckeys : List ℕ)
    (msg seed : List ℕ) : Option ((ℕ × ℕ) × Ctx n G RS) :=
  let c0 := contextCreate n P (rosterOf n P seckeys) seed
  match genAllNonces P c0 with
  | (false, _) => none
  | (true, c1) =>
    match signAllKeys P msg seckeys c1 with
    | (none, _) => none
    | (some parts, c2) =>
      match combineSignatures P c2 parts with
      | (none, _) => none
      | (some sig, c3) => some (sig, c3)

/-- The sum Σ e_j · P_j of challenge-weighted roster keys appearing in the
verification equation s·G − Σ e_j·P_j = R. -/
def challengeSum (n : ℕ) [NeZero n] (P : Prims G RS) (prehash : List ℕ)
    (pubkeys : List G) : G :=
  ((List.range pubkeys.length).map
    (fun j => smulZ (challengeAt (n := n) P prehash j) (pubkeys.getD j 0))).sum

/-- The properties of the external primitives that the spec relies on
(spec sections 3 and 4): the group is n-torsion (the secp256k1 group has
prime order n); for a nonzero point exactly one of P and −P has square y
(here: the negation of a non-square-y point has square y); recovering a
point from the x-coordinate of a nonzero square-y point returns that point;
x-coordinates of nonzero points are canonical field encodings; the
generator has order exactly n; and the multi-exp scratch size is positive. -/
structure Good (P : Prims G RS) (n : ℕ) [NeZero n] [AddCommGroup G] : Prop where
  torsion : ∀ Q : G, (n : ℕ) • Q = 0
  quad_neg : ∀ Q : G, Q ≠ 0 → P.quad Q = false → P.quad (-Q) = true
  xquad_round : ∀ Q : G, Q ≠ 0 → P.quad Q = true → P.setXquad (P.xcoord Q) = some Q
  xcoord_lt_p : ∀ Q : G, Q ≠ 0 → P.xcoord Q < P.p
  gen_order : ∀ k : ZMod n, smulZ k P.gen = 0 → k = 0
  maxN_pos : 1 ≤ P.maxN

/-- A small concrete instantiation of the primitives: the cyclic group
`ZMod 5` with generator 1, square-y modelled as `val ≤ 2` (so that exactly
one of Q and −Q is canonical for Q ≠ 0), one-byte serialisations, a toy
compression function in place of SHA-256, and a counter RNG.  It is used
only to instantiate the theorems on concrete runs. -/
def toyP : Prims (ZMod 5) ℕ where
  p := 5
  maxN := 2
  gen := 1
  quad Q := decide (Q.val ≤ 2)
  xcoord Q := Q.val
  setXquad x := if x < 5 ∧ (x : ZMod 5).val ≤ 2 then some (x : ZMod 5) else none
  serP Q := [Q.val]
  sha256 l := [(l.sum + l.length) % 5]
  rngInit seed := beVal seed
  rngGen st := ([st % 4 + 1], st + 1)

/-- The toy primitives satisfy all the assumed properties. -/
theorem toyGood : Good toyP 5 :=
  ⟨by decide, by decide, by decide, by decide, by decide, by decide⟩

theorem getD_set_self {α : Type} (l : List α) (i : ℕ) (h : i < l.length)
    (a d : α) : (l.set i a).getD i d = a := by
  induction l generalizing i with
  | nil => simp at h
  | cons x t ih =>
    cases i with
    | zero => rfl
    | succ j => exact ih j (by simpa using h)

theorem getD_set_ne {α : Type} (l : List α) {i j : ℕ} (h : i ≠ j) (a d : α) :
    (l.set i a).getD j d = l.getD j d := by
  induction l generalizing i j with
  | nil => simp [List.set]
  | cons x t ih =>
    cases i with
    | zero =>
      cases j with
      | zero => exact absurd rfl h
      | succ jj => rfl
    | succ ii =>
      cases j with
      | zero => rfl
      | succ jj => exact ih (by omega)

theorem getD_append_lt {α : Type} (l l2 : List α) (j : ℕ) (h : j < l.length)
    (d : α) : (l ++ l2).getD j d = l.getD j d := by
  induction l generalizing j with
  | nil => simp at h
  | cons x t ih =>
    cases j with
    | zero => rfl
    | succ jj => exact ih jj (by simpa using h)

theorem getD_append_ge {α : Type} (l l2 : List α) (j : ℕ) (h : l.length ≤ j)
    (d : α) : (l ++ l2).getD j d = l2.getD (j - l.length) d := by
  induction l generalizing j with
  | nil => simp
  | cons x t ih =>
    cases j with
    | zero => simp at h
    | succ jj => simpa using ih jj (by simpa using h)

theorem getD_replicate {α : Type} (m j : ℕ) (h : j < m) (a d : α) :
    (List.replicate m a).getD j d = a := by
  induction m generalizing j with
  | zero => omega
  | succ mm ih =>
    cases j with
    | zero => rfl
    | succ jj => exact ih jj (by omega)

theorem getD_length_le {α : Type} (l : List α) (j : ℕ) (h : l.length ≤ j)
    (d : α) : l.getD j d = d := by
  induction l generalizing j with
  | nil => simp
  | cons x t ih =>
    cases j with
    | zero => simp at h
    | succ jj => exact ih jj (by simpa using h)

theorem replicate_append_cons {α : Type} (i : ℕ) (a : α) (t : List α) :
    List.replicate i a ++ a :: t = List.replicate (i + 1) a ++ t := by
  induction i with
  | zero => rfl
  | succ ii ih => simp [List.replicate_succ, ih]

theorem set_replicate_append {α : Type} (i : ℕ) (a y z : α) (t : List α) :
    (List.replicate i a ++ y :: t).set i z = List.replicate i a ++ z :: t := by
  induction i with
  | zero => rfl
  | succ ii ih => simp [List.replicate_succ, ih]

theorem nsmul_mod (htor : ∀ Q : G, (n : ℕ) • Q = 0) (x : ℕ) (Q : G) :
    (x % n) • Q = x • Q := by
  conv_rhs => rw [← Nat.mod_add_div x n]
  rw [add_nsmul, mul_nsmul, htor, smul_zero, add_zero]

theorem smulZ_zero (Q : G) : smulZ (0 : ZMod n) Q = 0 := by
  simp [smulZ, ZMod.val_zero]

theorem smulZ_add (htor : ∀ Q : G, (n : ℕ) • Q = 0) (a b : ZMod n) (Q : G) :
    smulZ (a + b) Q = smulZ a Q + smulZ b Q := by
  simp only [smulZ, ZMod.val_add, nsmul_mod htor, add_nsmul]

theorem smulZ_neg (htor : ∀ Q : G, (n : ℕ) • Q = 0) (a : ZMod n) (Q : G) :
    smulZ (-a) Q = -smulZ a Q := by
  have h : smulZ (-a) Q + smulZ a Q = 0 := by
    rw [← smulZ_add htor, neg_add_cancel, smulZ_zero]
  exact eq_neg_of_add_eq_zero_left h

theorem smulZ_mul (htor : ∀ Q : G, (n : ℕ) • Q = 0) (a b : ZMod n) (Q : G) :
    smulZ (a * b) Q = smulZ a (smulZ b Q) := by
  simp only [smulZ, ZMod.val_mul]
  rw [nsmul_mod htor, mul_comm, mul_nsmul]

theorem smulZ_natCast (htor : ∀ Q : G, (n : ℕ) • Q = 0) (x : ℕ) (Q : G) :
    smulZ ((x : ZMod n)) Q = x • Q := by
  simp only [smulZ, ZMod.val_natCast, nsmul_mod htor]

theorem smulZ_val (a : ZMod n) (Q : G) :
    smulZ ((a.val : ZMod n)) Q = smulZ a Q := by
  simp only [smulZ, ZMod.val_natCast, Nat.mod_eq_of_lt (ZMod.val_lt a)]

theorem smulZ_list_sum (htor : ∀ Q : G, (n : ℕ) • Q = 0) (l : List (ZMod n))
    (Q : G) : smulZ l.sum Q = (l.map (fun a => smulZ a Q)).sum := by
  induction l with
  | nil => simpa using smulZ_zero Q
  | cons x t ih => simp [List.sum_cons, smulZ_add htor, ih]

theorem sumParts_eq (parts : List ℕ) :
    sumParts n parts =
      if ∀ v ∈ parts, v < n then
        some ((parts.map (fun v : ℕ => ((v : ZMod n)))).sum)
      else none := by
  induction parts with
  | nil => simp [sumParts]
  | cons v t ih =>
    rw [List.map_cons, List.sum_cons]
    show (if (scalarSetB32 n v).2 = true then none
      else (sumParts n t).map (fun s => s + (scalarSetB32 n v).1)) = _
    by_cases hv : n ≤ v
    · rw [if_pos (by simpa [scalarSetB32] using hv),
        if_neg (fun hall => absurd (hall v (by simp)) (by omega))]
    · rw [if_neg (by simpa [scalarSetB32] using hv), ih]
      by_cases ht : ∀ x ∈ t, x < n
      · have hall : ∀ x ∈ v :: t, x < n := by
          intro x hx
          rcases List.mem_cons.mp hx with h | h
          · omega
          · exact ht x h
        rw [if_pos ht, if_pos hall]
        simp [scalarSetB32, add_comm]
      · have : ¬ (∀ x ∈ v :: t, x < n) :=
          fun hall => ht (fun x hx => hall x (by simp [hx]))
        rw [if_neg ht, if_neg this]
        rfl

/-- Full characterisation of secp256k1_aggsig_combine_signatures: it fails
iff the partial count mismatches the session or some partial overflows
(with the session untouched), and on success it emits (Σ partials mod n,
x-coordinate of the conditionally negated aggregate nonce), storing the
conditional negation back into the session. -/
theorem combine_eq (P : Prims G RS) (c : Ctx n G RS) (parts : List ℕ) :
    combineSignatures P c parts =
      if parts.length = c.n_sigs ∧ ∀ v ∈ parts, v < n then
        (some (((parts.map (fun v : ℕ => ((v : ZMod n)))).sum).val,
               P.xcoord (condNeg P c.pubnonce_sum)),
         { c with pubnonce_sum := condNeg P c.pubnonce_sum })
      else (none, c) := by
  unfold combineSignatures
  rw [sumParts_eq]
  by_cases hl : parts.length = c.n_sigs
  · rw [if_neg (by simpa using hl)]
    by_cases hv : ∀ v ∈ parts, v < n
    · rw [if_pos hv, if_pos ⟨hl, hv⟩]
    · rw [if_neg hv, if_neg (fun h => hv h.2)]
  · rw [if_pos (by simpa using hl), if_neg (fun h => hl h.1)]

theorem condNeg_idem (P : Prims G RS)
    (hqn : ∀ Q : G, Q ≠ 0 → P.quad Q = false → P.quad (-Q) = true) (Q : G) :
    condNeg P (condNeg P Q) = condNeg P Q := by
  by_cases hq : P.quad Q = true
  · unfold condNeg
    rw [if_pos hq, if_pos hq]
  · by_cases h0 : Q = 0
    · subst h0
      unfold condNeg
      rw [if_neg hq, neg_zero, if_neg hq, neg_zero]
    · unfold condNeg
      rw [if_neg hq, if_pos (hqn Q h0 (by simpa using hq))]

theorem condNeg_quad (P : Prims G RS)
    (hqn : ∀ Q : G, Q ≠ 0 → P.quad Q = false → P.quad (-Q) = true) (Q : G)
    (h0 : Q ≠ 0) : P.quad (condNeg P Q) = true := by
  unfold condNeg
  by_cases hq : P.quad Q = true
  · rw [if_pos hq]
    exact hq
  · rw [if_neg hq]
    exact hqn Q h0 (by simpa using hq)

theorem condNeg_ne_zero (P : Prims G RS) (Q : G) (h0 : Q ≠ 0) :
    condNeg P Q ≠ 0 := by
  unfold condNeg
  by_cases hq : P.quad Q = true
  · rw [if_pos hq]
    exact h0
  · rw [if_neg hq]
    exact neg_ne_zero.mpr h0

theorem idxBytesAux_eq :
    ∀ fuel i, i ≤ fuel → idxBytesAux fuel i = Nat.digits 128 i := by
  intro fuel
  induction fuel with
  | zero =>
    intro i hi
    rw [Nat.le_zero] at hi
    subst hi
    rw [Nat.digits_zero]
    rfl
  | succ fuel ih =>
    intro i hi
    match i with
    | 0 =>
      rw [Nat.digits_zero]
      rfl
    | j + 1 =>
      show ((j + 1) % 128) :: idxBytesAux fuel ((j + 1) / 128) = _
      rw [ih ((j + 1) / 128)
            (by
              have := Nat.div_lt_self (Nat.succ_pos j) (by norm_num : 1 < 128)
              omega),
          Nat.digits_def' (by norm_num : (1 : ℕ) < 128) (Nat.succ_pos j)]

theorem idxBytes_eq_digits (i : ℕ) : idxBytes i = Nat.digits 128 i :=
  idxBytesAux_eq i i le_rfl

theorem computeSighash_eq (P : Prims G RS) (h : List ℕ) (i : ℕ) :
    computeSighash (n := n) P h i =
      if n ≤ beVal (P.sha256 (Nat.digits 128 i ++ h)) then none
      else some ((beVal (P.sha256 (Nat.digits 128 i ++ h)) : ZMod n)) := by
  unfold computeSighash
  rw [idxBytes_eq_digits]
  by_cases hb : n ≤ beVal (P.sha256 (Nat.digits 128 i ++ h))
  · rw [if_pos (by simpa [scalarSetB32] using hb), if_pos hb]
  · rw [if_neg (by simpa [scalarSetB32] using hb), if_neg hb]
    rfl

theorem drawNonce_ne_zero (P : Prims G RS) :
    ∀ (fuel : ℕ) (st : RS) (k : ZMod n) (st2 : RS),
      drawNonce P fuel st = some (k, st2) → k ≠ 0 := by
  intro fuel
  induction fuel with
  | zero =>
    intro st k st2 h
    simp [drawNonce] at h
  | succ f ih =>
    intro st k st2 h
    simp only [drawNonce] at h
    split at h
    · exact ih _ k st2 h
    · next hcond =>
      obtain ⟨h1, _⟩ := Prod.mk.injEq .. ▸ (Option.some.injEq .. ▸ h)
      rcases not_or.mp hcond with ⟨_, hz⟩
      rw [h1] at hz
      exact hz

/-- Success shape of secp256k1_aggsig_generate_nonce: the gates passed, a
nonzero scalar was drawn, and the session was updated with the
conditionally negated nonce and its point added into pubnonce_sum. -/
theorem generateNonce_true (P : Prims G RS) (c c2 : Ctx n G RS) (i : ℕ)
    (h : generateNonce P c i = (true, c2)) :
    i < c.n_sigs ∧ c.progress.getD i Progress.unknown = Progress.unknown ∧
    ∃ k rng2, drawNonce P rngFuel c.rng = some (k, rng2) ∧ k ≠ 0 ∧
      c2 = { c with
        secnonce := c.secnonce.set i (if P.quad (smulZ k P.gen) then k else -k)
        pubnonce_sum := c.pubnonce_sum +
          (if P.quad (smulZ k P.gen) then smulZ k P.gen else -(smulZ k P.gen))
        progress := c.progress.set i Progress.ours
        rng := rng2 } := by
  unfold generateNonce at h
  by_cases hi : i < c.n_sigs
  · rw [if_pos hi] at h
    by_cases hu : c.progress.getD i Progress.unknown ≠ Progress.unknown
    · rw [if_pos hu] at h
      simp at h
    · rw [if_neg hu] at h
      refine ⟨hi, not_not.mp hu, ?_⟩
      cases hdraw : drawNonce P rngFuel c.rng with
      | none =>
        rw [hdraw] at h
        simp at h
      | some kr =>
        obtain ⟨k, rng2⟩ := kr
        rw [hdraw] at h
        refine ⟨k, rng2, rfl, drawNonce_ne_zero P _ _ k rng2 hdraw, ?_⟩
        replace h : (if P.quad (smulZ k P.gen) = true then
            ((true, { c with
              secnonce := c.secnonce.set i k
              pubnonce_sum := c.pubnonce_sum + smulZ k P.gen
              progress := c.progress.set i Progress.ours
              rng := rng2 }) : Bool × Ctx n G RS)
          else
            (true, { c with
              secnonce := c.secnonce.set i (-k)
              pubnonce_sum := c.pubnonce_sum + -smulZ k P.gen
              progress := c.progress.set i Progress.ours
              rng := rng2 })) = (true, c2) := h
        by_cases hq : P.quad (smulZ k P.gen) = true
        · rw [if_pos hq] at h
          rw [if_pos hq, if_pos hq]
          exact (congrArg Prod.snd h).symm
        · rw [if_neg hq] at h
          rw [if_neg hq, if_neg hq]
          exact (congrArg Prod.snd h).symm
  · rw [if_neg hi] at h
    simp at h

theorem flipCtx_progress (P : Prims G RS) (c : Ctx n G RS) (i : ℕ) :
    (flipCtx P c i).progress = c.progress := by
  unfold flipCtx
  split <;> rfl

theorem flipCtx_pubkeys (P : Prims G RS) (c : Ctx n G RS) (i : ℕ) :
    (flipCtx P c i).pubkeys = c.pubkeys := by
  unfold flipCtx
  split <;> rfl

theorem flipCtx_n_sigs (P : Prims G RS) (c : Ctx n G RS) (i : ℕ) :
    (flipCtx P c i).n_sigs = c.n_sigs := by
  unfold flipCtx
  split <;> rfl

theorem flipCtx_pubnonce_sum (P : Prims G RS) (c : Ctx n G RS) (i : ℕ) :
    (flipCtx P c i).pubnonce_sum = c.pubnonce_sum := by
  unfold flipCtx
  split <;> rfl

theorem flipCtx_rng (P : Prims G RS) (c : Ctx n G RS) (i : ℕ) :
    (flipCtx P c i).rng = c.rng := by
  unfold flipCtx
  split <;> rfl

theorem flipCtx_secnonce_length (P : Prims G RS) (c : Ctx n G RS) (i : ℕ) :
    (flipCtx P c i).secnonce.length = c.secnonce.length := by
  unfold flipCtx
  split
  · rfl
  · exact List.length_set ..

theorem flipCtx_secnonce_getD (P : Prims G RS) (c : Ctx n G RS) (i : ℕ)
    (h : i < c.secnonce.length) :
    (flipCtx P c i).secnonce.getD i 0 =
      if P.quad c.pubnonce_sum then c.secnonce.getD i 0
      else -(c.secnonce.getD i 0) := by
  unfold flipCtx
  by_cases hq : P.quad c.pubnonce_sum = true
  · rw [if_pos hq, if_pos hq]
  · rw [if_neg hq, if_neg hq]
    exact getD_set_self c.secnonce i h _ 0

theorem flipCtx_secnonce_getD_ne (P : Prims G RS) (c : Ctx n G RS) {i j : ℕ}
    (hij : i ≠ j) :
    (flipCtx P c i).secnonce.getD j 0 = c.secnonce.getD j 0 := by
  unfold flipCtx
  split
  · rfl
  · exact getD_set_ne c.secnonce hij _ 0

/-- The per-index entry of a signing-stage progress list: SIGNED below the
cursor, OURS at and above it. -/
theorem progress_entry (N i j : ℕ) (hj : j < N) :
    (List.replicate i Progress.signed ++
      List.replicate (N - i) Progress.ours).getD j Progress.unknown =
      if j < i then Progress.signed else Progress.ours := by
  by_cases h : j < i
  · rw [getD_append_lt _ _ j (by simpa using h), if_pos h]
    exact getD_replicate i j h _ _
  · rw [getD_append_ge _ _ j (by simpa using not_lt.mp h), if_neg h]
    rw [List.length_replicate]
    exact getD_replicate _ _ (by omega) _ _

/-- With the state-machine gates passing, partial_sign reduces to its
signing body. -/
theorem partSign_body (P : Prims G RS) (c : Ctx n G RS) (msg : List ℕ)
    (sk i : ℕ) (hi : i < c.n_sigs)
    (hany : (List.range c.n_sigs).any
      (fun j => decide (c.progress.getD j Progress.unknown = Progress.unknown)) = false)
    (hours : c.progress.getD i Progress.unknown = Progress.ours) :
    partSign P c msg sk i =
      match computeSighash P
          (computePrehash P c.pubkeys (condNeg P c.pubnonce_sum) msg) i with
      | none => (none, flipCtx P c i)
      | some sighash =>
        if (scalarSetB32 n sk).2 = true then (none, flipCtx P c i)
        else
          (some ((scalarSetB32 n sk).1 * sighash +
              (flipCtx P c i).secnonce.getD i 0).val,
           { flipCtx P c i with
              progress := (flipCtx P c i).progress.set i Progress.signed }) := by
  unfold partSign
  rw [if_pos hi, if_neg (by rw [hany]; exact Bool.false_ne_true),
    if_neg (fun hne => hne hours)]

/-- During the signing stage no index is UNKNOWN, so the all-nonces-known
gate of partial_sign passes. -/
theorem sign_stage_any_false (N i : ℕ) :
    ((List.range N).any (fun j =>
      decide ((List.replicate i Progress.signed ++
        List.replicate (N - i) Progress.ours).getD j Progress.unknown =
        Progress.unknown))) = false := by
  apply Bool.eq_false_iff.mpr
  intro hcontra
  rw [List.any_eq_true] at hcontra
  obtain ⟨j, hj, hpj⟩ := hcontra
  rw [List.mem_range] at hj
  rw [progress_entry N i j hj] at hpj
  rcases lt_or_ge j i with h | h
  · rw [if_pos h] at hpj
    exact absurd (of_decide_eq_true hpj) (by simp)
  · rw [if_neg (not_lt.mpr h)] at hpj
    exact absurd (of_decide_eq_true hpj) (by simp)

/-- Invariant of the signing stage: running partial_sign over indices
i..N-1 with the matching keys, starting from a session whose first i
indices are SIGNED and the rest OURS, signs everything; the aggregate sum,
roster and size are untouched; every index signed in this stage has its
secret nonce conditionally negated (negated exactly when the aggregate
lacks square y); earlier indices are untouched; and the emitted partials
are x_j·e_j + k_j over the flipped nonces, with every needed challenge
parsing. -/
theorem signFrom_inv (P : Prims G RS) (msg : List ℕ) (seckeys : List ℕ)
    (N : ℕ) (pks : List G) (S : G) (ν : ℕ → ZMod n) :
    ∀ (m : ℕ) (c : Ctx n G RS) (i : ℕ) (parts : List ℕ) (c2 : Ctx n G RS),
      signFrom P msg seckeys c i m = (some parts, c2) →
      i + m = N →
      c.n_sigs = N → c.pubkeys = pks → c.pubnonce_sum = S →
      c.secnonce.length = N →
      c.progress = List.replicate i Progress.signed ++
        List.replicate (N - i) Progress.ours →
      (∀ j, i ≤ j → c.secnonce.getD j 0 = ν j) →
      c2.n_sigs = N ∧ c2.pubkeys = pks ∧ c2.pubnonce_sum = S ∧
      c2.secnonce.length = N ∧
      c2.progress = List.replicate N Progress.signed ∧
      (∀ j, j < i → c2.secnonce.getD j 0 = c.secnonce.getD j 0) ∧
      (∀ j, i ≤ j → j < N →
        c2.secnonce.getD j 0 = (if P.quad S then ν j else -(ν j))) ∧
      parts = (List.range m).map (fun t =>
        ((seckeys.getD (i + t) 0 : ZMod n) *
          challengeAt P (computePrehash P pks (condNeg P S) msg) (i + t) +
         (if P.quad S then ν (i + t) else -(ν (i + t)))).val) ∧
      (∀ t, t < m →
        (computeSighash (n := n) P (computePrehash P pks (condNeg P S) msg)
          (i + t)).isSome = true) := by
  intro m
  induction m with
  | zero =>
    intro c i parts c2 h hN hns hpk hsum hlen hprog hsec
    obtain ⟨hp, hc⟩ : some ([] : List ℕ) = some parts ∧ c = c2 :=
      ⟨congrArg Prod.fst h, congrArg Prod.snd h⟩
    rw [← hc]
    have hiN : i = N := by omega
    subst hiN
    refine ⟨hns, hpk, hsum, hlen, by simpa using hprog,
      fun j hj => rfl, fun j hj1 hj2 => absurd hj1 (by omega),
      by simpa using hp.symm, fun t ht => absurd ht (by omega)⟩
  | succ mm ih =>
    intro c i parts c2 h hN hns hpk hsum hlen hprog hsec
    have hiN : i < N := by omega
    have hany : ((List.range c.n_sigs).any (fun j =>
        decide (c.progress.getD j Progress.unknown = Progress.unknown))) = false := by
      rw [hns, hprog]
      exact sign_stage_any_false N i
    have hours : c.progress.getD i Progress.unknown = Progress.ours := by
      rw [hprog, progress_entry N i i hiN, if_neg (by omega)]
    rw [signFrom, partSign_body P c msg (seckeys.getD i 0) i (by omega) hany hours] at h
    cases hsig : computeSighash (n := n) P
        (computePrehash P c.pubkeys (condNeg P c.pubnonce_sum) msg) i with
    | none =>
      simp only [hsig] at h
      simp at h
    | some e =>
      simp only [hsig] at h
      by_cases hsk : (scalarSetB32 n (seckeys.getD i 0)).2 = true
      · rw [if_pos hsk] at h
        simp at h
      · rw [if_neg hsk] at h
        replace h : (match signFrom P msg seckeys
            ({ flipCtx P c i with
              progress := (flipCtx P c i).progress.set i Progress.signed }) (i + 1) mm with
          | (none, c3) => (none, c3)
          | (some ps, c3) =>
            (some (((scalarSetB32 n (seckeys.getD i 0)).1 * e +
              (flipCtx P c i).secnonce.getD i 0).val :: ps), c3)) = (some parts, c2) := h
        cases hrec : signFrom P msg seckeys
            ({ flipCtx P c i with
              progress := (flipCtx P c i).progress.set i Progress.signed }) (i + 1) mm with
        | mk r c3 =>
          cases r with
          | none =>
            rw [hrec] at h
            simp at h
          | some ps =>
            rw [hrec] at h
            have hparts : ((scalarSetB32 n (seckeys.getD i 0)).1 * e +
                (flipCtx P c i).secnonce.getD i 0).val :: ps = parts :=
              Option.some.inj (congrArg Prod.fst h)
            have hc2 : c3 = c2 := congrArg Prod.snd h
            obtain ⟨k1, k2, k3, k4, k5, k6, k7, k8, k9⟩ := ih
              ({ flipCtx P c i with
                progress := (flipCtx P c i).progress.set i Progress.signed })
              (i + 1) ps c3 hrec (by omega)
              (by show (flipCtx P c i).n_sigs = N; rw [flipCtx_n_sigs]; exact hns)
              (by show (flipCtx P c i).pubkeys = pks; rw [flipCtx_pubkeys]; exact hpk)
              (by show (flipCtx P c i).pubnonce_sum = S; rw [flipCtx_pubnonce_sum]; exact hsum)
              (by show (flipCtx P c i).secnonce.length = N
                  rw [flipCtx_secnonce_length]; exact hlen)
              (by show (flipCtx P c i).progress.set i Progress.signed = _
                  rw [flipCtx_progress, hprog,
                    show N - i = (N - (i + 1)) + 1 by omega, List.replicate_succ,
                    set_replicate_append, replicate_append_cons])
              (fun j hj => by
                show (flipCtx P c i).secnonce.getD j 0 = ν j
                rw [flipCtx_secnonce_getD_ne P c (show i ≠ j by omega)]
                exact hsec j (by omega))
            rw [← hc2]
            have hflipi : (flipCtx P c i).secnonce.getD i 0 =
                if P.quad S then ν i else -(ν i) := by
              rw [flipCtx_secnonce_getD P c i (by omega), hsum,
                hsec i le_rfl]
            have hhash : computePrehash P c.pubkeys
                (condNeg P c.pubnonce_sum) msg =
                computePrehash P pks (condNeg P S) msg := by rw [hpk, hsum]
            refine ⟨k1, k2, k3, k4, k5, ?_, ?_, ?_, ?_⟩
            · intro j hj
              rw [k6 j (by omega)]
              show (flipCtx P c i).secnonce.getD j 0 = c.secnonce.getD j 0
              exact flipCtx_secnonce_getD_ne P c (by omega)
            · intro j hj1 hj2
              rcases eq_or_lt_of_le hj1 with he | hlt
              · rw [← he, k6 i (by omega)]
                show (flipCtx P c i).secnonce.getD i 0 = _
                exact hflipi
              · exact k7 j hlt hj2
            · rw [← hparts, k8, List.range_succ_eq_map, List.map_cons,
                List.map_map]
              congr 1
              · rw [Nat.add_zero, hflipi]
                have he2 : challengeAt P (computePrehash P pks (condNeg P S) msg) i = e := by
                  rw [challengeAt, ← hhash, hsig]
                  rfl
                rw [he2]
                rfl
              · apply List.map_congr_left
                intro t ht
                rw [show (i + 1) + t = i + (t + 1) by omega]
                rfl
            · intro t ht
              cases t with
              | zero =>
                rw [Nat.add_zero, ← hhash, hsig]
                rfl
              | succ tt =>
                rw [show i + (tt + 1) = (i + 1) + tt by omega]
                exact k9 tt (by omega)

theorem msum_nil : msum (n := n) (G := G) [] = 0 := rfl

theorem msum_append (l1 l2 : List (ZMod n × G)) :
    msum (l1 ++ l2) = msum l1 + msum l2 := by
  unfold msum
  rw [List.map_append, List.sum_append]

/-- Characterisation of the chunk-filling loop of the verifier: it
produces the negated challenges paired with the roster keys for `count`
consecutive indices from `i`, and fails iff some challenge overflows. -/
theorem chunkTerms_eq (P : Prims G RS) (h : List ℕ) (pks : List G) :
    ∀ (count i : ℕ),
      chunkTerms (n := n) P h pks i count =
        if ∀ t, t < count → (computeSighash (n := n) P h (i + t)).isSome = true
        then some ((List.range count).map
          (fun t => (-(challengeAt P h (i + t)), pks.getD (i + t) 0)))
        else none := by
  intro count
  induction count with
  | zero =>
    intro i
    rw [if_pos (fun t ht => absurd ht (by omega))]
    rfl
  | succ m ih =>
    intro i
    cases hsig : computeSighash (n := n) P h i with
    | none =>
      have hred : chunkTerms (n := n) P h pks i (m + 1) = none := by
        rw [chunkTerms, hsig]
      rw [hred, if_neg (fun hall => by
        have h0 := hall 0 (by omega)
        rw [Nat.add_zero, hsig] at h0
        exact absurd h0 (by simp))]
    | some e =>
      have hred : chunkTerms (n := n) P h pks i (m + 1) =
          (chunkTerms (n := n) P h pks (i + 1) m).map
            (fun ts => (-e, pks.getD i 0) :: ts) := by
        rw [chunkTerms, hsig]
      rw [hred, ih (i + 1)]
      by_cases hrest : ∀ t, t < m →
          (computeSighash (n := n) P h ((i + 1) + t)).isSome = true
      · rw [if_pos hrest, if_pos (fun t ht => by
          cases t with
          | zero => rw [Nat.add_zero, hsig]; rfl
          | succ tt =>
            rw [show i + (tt + 1) = (i + 1) + tt by omega]
            exact hrest tt (by omega))]
        rw [Option.map_some']
        congr 1
        rw [List.range_succ_eq_map, List.map_cons, List.map_map]
        congr 1
        · rw [Nat.add_zero, challengeAt, hsig]
          rfl
        · apply List.map_congr_left
          intro t ht
          rw [show (i + 1) + t = i + (t + 1) by omega]
          rfl
      · rw [if_neg hrest, if_neg (fun hall => hrest (fun t ht => by
          rw [show (i + 1) + t = i + (t + 1) by omega]
          exact hall (t + 1) (by omega)))]
        rfl

/-- Characterisation of the chunked multi-exponentiation loop of the
verifier: provided the scratch size is positive and the fuel covers the
remaining indices (plus one stalled first iteration when the preloaded
terms fill the scratch), the loop accumulates exactly
acc + msum pre + Σ (−e_t)·P_t over the remaining indices, and fails iff
some challenge overflows. -/
theorem verifyLoop_eq (P : Prims G RS) (hmax : 1 ≤ P.maxN) (h : List ℕ)
    (pks : List G) :
    ∀ (fuel i : ℕ) (pre : List (ZMod n × G)) (acc : G),
      pks.length - i + 1 + pre.length ≤ fuel →
      pre.length ≤ 1 →
      (pre = [] ∨ i < pks.length) →
      verifyLoop P h pks fuel i pre acc =
        if ∀ t, t < pks.length - i →
            (computeSighash (n := n) P h (i + t)).isSome = true
        then some (acc + msum pre +
          msum ((List.range (pks.length - i)).map
            (fun t => (-(challengeAt (n := n) P h (i + t)), pks.getD (i + t) 0))))
        else none := by
  intro fuel
  induction fuel with
  | zero =>
    intro i pre acc hfu hpl hpre
    omega
  | succ f ih =>
    intro i pre acc hfu hpl hpre
    rw [verifyLoop]
    by_cases hi : i < pks.length
    · rw [if_pos hi]
      by_cases hc0 : min (pks.length - i) (P.maxN - pre.length) = 0
      · have hpl1 : pre.length = 1 := by omega
        have hx : chunkTerms (n := n) P h pks i
            (min (pks.length - i) (P.maxN - pre.length)) = some [] := by
          rw [hc0]
          rfl
        simp only [hx]
        rw [hc0, Nat.add_zero, ih i [] (acc + msum (pre ++ []))
          (by simp; omega) (by simp) (Or.inl rfl)]
        rw [List.append_nil]
        by_cases hall : ∀ t, t < pks.length - i →
            (computeSighash (n := n) P h (i + t)).isSome = true
        · rw [if_pos hall, if_pos hall]
          rw [msum_nil, add_zero]
        · rw [if_neg hall, if_neg hall]
      · have hcle : min (pks.length - i) (P.maxN - pre.length) ≤ pks.length - i :=
          Nat.min_le_left _ _
        by_cases hchunk : ∀ t, t < min (pks.length - i) (P.maxN - pre.length) →
            (computeSighash (n := n) P h (i + t)).isSome = true
        · have hx := chunkTerms_eq (n := n) P h pks
            (min (pks.length - i) (P.maxN - pre.length)) i
          rw [if_pos hchunk] at hx
          simp only [hx]
          rw [ih (i + min (pks.length - i) (P.maxN - pre.length)) []
            (acc + msum (pre ++ (List.range
              (min (pks.length - i) (P.maxN - pre.length))).map
              (fun t => (-(challengeAt (n := n) P h (i + t)), pks.getD (i + t) 0))))
            (by simp; omega) (by simp) (Or.inl rfl)]
          set cnt := min (pks.length - i) (P.maxN - pre.length) with hcnt
          by_cases hall : ∀ t, t < pks.length - i →
              (computeSighash (n := n) P h (i + t)).isSome = true
          · rw [if_pos (fun t ht => by
              rw [show (i + cnt) + t = i + (cnt + t) by omega]
              exact hall (cnt + t) (by omega)), if_pos hall]
            have hsplit : msum ((List.range (pks.length - i)).map
                (fun t => (-(challengeAt (n := n) P h (i + t)),
                  pks.getD (i + t) 0))) =
              msum ((List.range cnt).map
                (fun t => (-(challengeAt (n := n) P h (i + t)),
                  pks.getD (i + t) 0))) +
              msum ((List.range (pks.length - (i + cnt))).map
                (fun t => (-(challengeAt (n := n) P h ((i + cnt) + t)),
                  pks.getD ((i + cnt) + t) 0))) := by
              rw [show pks.length - i = cnt + (pks.length - (i + cnt)) by omega,
                List.range_add, List.map_append, msum_append]
              congr 1
              rw [List.map_map]
              refine congrArg msum (List.map_congr_left (fun t ht => ?_))
              show (-(challengeAt (n := n) P h (i + (cnt + t))),
                pks.getD (i + (cnt + t)) 0) = _
              rw [show i + (cnt + t) = (i + cnt) + t by omega]
            rw [msum_nil, add_zero, msum_append, hsplit]
            congr 1
            abel
          · rw [if_neg (fun hrest => hall (fun t ht => by
              rcases lt_or_ge t cnt with hlt | hge
              · exact hchunk t hlt
              · have := hrest (t - cnt) (by omega)
                rw [show (i + cnt) + (t - cnt) = i + t by omega] at this
                exact this)), if_neg hall]
        · have hx := chunkTerms_eq (n := n) P h pks
            (min (pks.length - i) (P.maxN - pre.length)) i
          rw [if_neg hchunk] at hx
          simp only [hx]
          rw [if_neg (fun hall => hchunk (fun t ht =>
            hall t (by omega)))]
    · rw [if_neg hi]
      have hpre2 : pre = [] := by
        rcases hpre with h0 | h0
        · exact h0
        · omega
      rw [if_pos (fun t ht => absurd ht (by omega)), hpre2]
      rw [show pks.length - i = 0 by omega]
      rw [msum_nil, add_zero, List.range_zero, List.map_nil, msum_nil, add_zero]

theorem msum_map_neg (htor : ∀ Q : G, (n : ℕ) • Q = 0) (l : List ℕ)
    (f : ℕ → ZMod n) (g : ℕ → G) :
    msum (l.map (fun t => (-(f t), g t))) =
      -((l.map (fun t => smulZ (f t) (g t))).sum) := by
  induction l with
  | nil =>
    rw [List.map_nil, msum_nil, List.map_nil, List.sum_nil, neg_zero]
  | cons a t ih =>
    rw [List.map_cons, List.map_cons, List.sum_cons]
    show smulZ (-(f a)) (g a) + msum (t.map (fun t => (-(f t), g t))) = _
    rw [ih, smulZ_neg htor, neg_add]

/-- Full characterisation of secp256k1_aggsig_verify: it accepts exactly
when the roster is non-empty, the s half parses as a scalar, the x half is
a canonical field encoding from which a square-y point R is recoverable,
every per-index challenge parses, and s·G − Σ e_j·P_j = R. -/
theorem verify_iff [DecidableEq G] (P : Prims G RS) (hmax : 1 ≤ P.maxN)
    (htor : ∀ Q : G, (n : ℕ) • Q = 0) (sig : ℕ × ℕ) (msg : List ℕ)
    (pks : List G) :
    verify (n := n) P sig msg pks = true ↔
      pks ≠ [] ∧ sig.1 < n ∧ sig.2 < P.p ∧
      ∃ R, P.setXquad sig.2 = some R ∧
        (∀ j, j < pks.length →
          (computeSighash (n := n) P (computePrehash P pks R msg) j).isSome
            = true) ∧
        smulZ ((sig.1 : ZMod n)) P.gen -
          challengeSum n P (computePrehash P pks R msg) pks = R := by
  unfold verify
  by_cases h0 : pks.length = 0
  · rw [if_pos h0]
    constructor
    · intro hh
      exact absurd hh (by simp)
    · rintro ⟨hne, -⟩
      exact absurd (List.length_eq_zero.mp h0) hne
  · rw [if_neg h0]
    by_cases hs : (scalarSetB32 n sig.1).2 = true
    · rw [if_pos hs]
      have hs2 : n ≤ sig.1 := by simpa [scalarSetB32] using hs
      constructor
      · intro hh
        exact absurd hh (by simp)
      · rintro ⟨-, hlt, -⟩
        omega
    · rw [if_neg hs]
      have hs2 : sig.1 < n := by
        by_contra hc
        exact hs (by simpa [scalarSetB32] using hc)
      by_cases hp : P.p ≤ sig.2
      · rw [if_pos hp]
        constructor
        · intro hh
          exact absurd hh (by simp)
        · rintro ⟨-, -, hlt, -⟩
          omega
      · rw [if_neg hp]
        cases hxq : P.setXquad sig.2 with
        | none =>
          simp only [hxq]
          constructor
          · intro hh
            exact absurd hh (by simp)
          · rintro ⟨-, -, -, R, hR, -⟩
            exact absurd hR (by simp)
        | some rge =>
          simp only [hxq]
          have hloop := verifyLoop_eq (n := n) P hmax
            (computePrehash P pks rge msg) pks (pks.length + 2) 0
            [((scalarSetB32 n sig.1).1, P.gen)] 0
            (by simp) (by simp) (Or.inr (by omega))
          by_cases hall : ∀ t, t < pks.length - 0 →
              (computeSighash (n := n) P (computePrehash P pks rge msg)
                (0 + t)).isSome = true
          · rw [if_pos hall] at hloop
            simp only [hloop]
            have hTeq : (0 : G) + msum [((scalarSetB32 n sig.1).1, P.gen)] +
                msum ((List.range (pks.length - 0)).map
                  (fun t => (-(challengeAt (n := n) P
                    (computePrehash P pks rge msg) (0 + t)),
                    pks.getD (0 + t) 0))) =
                smulZ ((sig.1 : ZMod n)) P.gen -
                  challengeSum n P (computePrehash P pks rge msg) pks := by
              rw [zero_add, Nat.sub_zero]
              simp only [Nat.zero_add]
              rw [msum_map_neg htor, challengeSum]
              show smulZ ((sig.1 : ZMod n)) P.gen + 0 + _ = _
              rw [add_zero, sub_eq_add_neg]
            rw [hTeq, decide_eq_true_eq]
            constructor
            · intro hT
              refine ⟨fun hnil => by simp [hnil] at h0, hs2,
                lt_of_not_ge hp, rge, rfl, ?_, ?_⟩
              · intro j hj
                have := hall j (by omega)
                rwa [Nat.zero_add] at this
              · rwa [add_neg_eq_zero] at hT
            · rintro ⟨-, -, -, R, hR, -, heq⟩
              have hRr : R = rge := (Option.some.inj hR).symm
              rw [add_neg_eq_zero]
              rw [hRr] at heq
              exact heq
          · rw [if_neg hall] at hloop
            simp only [hloop]
            constructor
            · intro hh
              exact absurd hh (by simp)
            · rintro ⟨-, -, -, R, hR, hsome, -⟩
              have hRr : R = rge := (Option.some.inj hR).symm
              refine absurd (fun t ht => ?_) hall
              rw [Nat.zero_add]
              rw [hRr] at hsome
              exact hsome t (by omega)

/-- Invariant of the nonce-generation stage: after a successful run of
generate_nonce over indices i..n_sigs-1 starting from a session whose first
i indices are OURS and the rest UNKNOWN, all indices are OURS, roster and
size are untouched, and pubnonce_sum is the sum over all indices of
`secnonce[j]·G` (every per-index accumulation having been conditionally
negated to the square-y representative before the addition). -/
theorem genFrom_inv (P : Prims G RS) (htor : ∀ Q : G, (n : ℕ) • Q = 0) :
    ∀ (m : ℕ) (c c2 : Ctx n G RS) (i : ℕ),
      genFrom P c i m = (true, c2) →
      i + m = c.n_sigs →
      c.progress = List.replicate i Progress.ours ++
        List.replicate (c.n_sigs - i) Progress.unknown →
      c.secnonce.length = c.n_sigs →
      c.pubnonce_sum =
        ((List.range i).map (fun j => smulZ (c.secnonce.getD j 0) P.gen)).sum →
      c2.n_sigs = c.n_sigs ∧ c2.pubkeys = c.pubkeys ∧
      c2.secnonce.length = c.n_sigs ∧
      c2.progress = List.replicate c.n_sigs Progress.ours ∧
      c2.pubnonce_sum =
        ((List.range c.n_sigs).map
          (fun j => smulZ (c2.secnonce.getD j 0) P.gen)).sum := by
  intro m
  induction m with
  | zero =>
    intro c c2 i h hN hprog hlen hsum
    have hc : c2 = c := (congrArg Prod.snd h).symm
    have hiN : i = c.n_sigs := by omega
    subst hiN
    rw [hc]
    refine ⟨rfl, rfl, hlen, ?_, hsum⟩
    simpa using hprog
  | succ mm ih =>
    intro c c2 i h hN hprog hlen hsum
    have hiN : i < c.n_sigs := by omega
    cases hg : generateNonce P c i with
    | mk b cmid =>
      cases b with
      | false =>
        rw [genFrom, hg] at h
        simp at h
      | true =>
        rw [genFrom, hg] at h
        replace h : genFrom P cmid (i + 1) mm = (true, c2) := h
        obtain ⟨-, -, k, rng2, -, -, hcmid⟩ := generateNonce_true P c cmid i hg
        have hns : cmid.n_sigs = c.n_sigs := by rw [hcmid]
        have hpk : cmid.pubkeys = c.pubkeys := by rw [hcmid]
        have hsl : cmid.secnonce.length = c.n_sigs := by
          rw [hcmid]
          show (c.secnonce.set i _).length = c.n_sigs
          rw [List.length_set]
          exact hlen
        have hpr : cmid.progress = List.replicate (i + 1) Progress.ours ++
            List.replicate (c.n_sigs - (i + 1)) Progress.unknown := by
          rw [hcmid]
          show c.progress.set i Progress.ours = _
          rw [hprog, show c.n_sigs - i = (c.n_sigs - (i + 1)) + 1 by omega,
            List.replicate_succ, set_replicate_append, replicate_append_cons]
        have hps : cmid.pubnonce_sum = ((List.range (i + 1)).map
            (fun j => smulZ (cmid.secnonce.getD j 0) P.gen)).sum := by
          rw [hcmid]
          show c.pubnonce_sum + _ = _
          rw [List.range_succ, List.map_append, List.sum_append, hsum]
          congr 1
          · refine congrArg List.sum (List.map_congr_left (fun j hj => ?_))
            have hj2 : j < i := List.mem_range.mp hj
            show smulZ (c.secnonce.getD j 0) P.gen = _
            rw [getD_set_ne c.secnonce (show i ≠ j by omega)]
          · rw [List.map_singleton, List.sum_singleton,
              getD_set_self c.secnonce i (by omega) _ 0]
            by_cases hq : P.quad (smulZ k P.gen) = true
            · rw [if_pos hq, if_pos hq]
            · rw [if_neg hq, if_neg hq, smulZ_neg htor]
        obtain ⟨h1, h2, h3, h4, h5⟩ := ih cmid c2 (i + 1) h (by omega)
          (by rw [hpr, hns]) (by rw [hsl, hns]) hps
        rw [hns] at h1 h3 h4 h5
        rw [hpk] at h2
        exact ⟨h1, h2, h3, h4, h5⟩

theorem getD_map_lt {α β : Type} (f : α → β) (l : List α) (t : ℕ) (da : α)
    (db : β) (h : t < l.length) :
    (l.map f).getD t db = f (l.getD t da) := by
  induction l generalizing t with
  | nil => simp at h
  | cons x xs ih =>
    cases t with
    | zero => rfl
    | succ tt => exact ih tt (by simpa using h)

theorem list_sum_map_add (l : List ℕ) (f g : ℕ → G) :
    (l.map (fun t => f t + g t)).sum = (l.map f).sum + (l.map g).sum := by
  induction l with
  | nil => simp
  | cons a t ih =>
    simp only [List.map_cons, List.sum_cons, ih]
    abel

theorem list_sum_map_neg {α : Type} (l : List α) (f : α → G) :
    (l.map (fun a => -(f a))).sum = -((l.map f).sum) := by
  induction l with
  | nil => simp
  | cons a t ih => simp only [List.map_cons, List.sum_cons, ih, neg_add]

/-- Assembly of the three protocol stages: starting from a fresh session
over the roster derived from the secret keys, if nonce generation, signing
and combination all succeed and the final aggregate nonce is not the
identity, the combined signature verifies; moreover every secret nonce was
conditionally negated during signing (negated exactly when the aggregate
sum lacked square y). -/
theorem pipeline_verify [DecidableEq G] (P : Prims G RS) (hG : Good P n)
    (seckeys msg seed : List ℕ) (c1 c2 c3 : Ctx n G RS) (parts : List ℕ)
    (sig : ℕ × ℕ)
    (h1 : genAllNonces P (contextCreate n P (rosterOf n P seckeys) seed) =
      (true, c1))
    (h2 : signAllKeys P msg seckeys c1 = (some parts, c2))
    (h3 : combineSignatures P c2 parts = (some sig, c3))
    (hS : c3.pubnonce_sum ≠ 0) :
    verify (n := n) P sig msg (rosterOf n P seckeys) = true ∧
    (∀ j, j < c1.n_sigs → c2.secnonce.getD j 0 =
      (if P.quad c1.pubnonce_sum then c1.secnonce.getD j 0
       else -(c1.secnonce.getD j 0))) := by
  have htor := hG.torsion
  obtain ⟨g1, g2, g3, g4, g5⟩ := genFrom_inv P htor
    (contextCreate n P (rosterOf n P seckeys) seed).n_sigs
    (contextCreate n P (rosterOf n P seckeys) seed) c1 0 h1 (by omega)
    rfl (List.length_replicate ..) rfl
  obtain ⟨s1, s2, s3, s4, s5, s6, s7, s8, s9⟩ := signFrom_inv P msg seckeys
    c1.n_sigs c1.pubkeys c1.pubnonce_sum (fun j => c1.secnonce.getD j 0)
    c1.n_sigs c1 0 parts c2 h2 (by omega) rfl rfl rfl
    (by rw [g3, g1]) (by rw [g4, g1]; rfl) (fun j hj => rfl)
  rw [combine_eq] at h3
  by_cases hcond : parts.length = c2.n_sigs ∧ ∀ v ∈ parts, v < n
  case neg =>
    rw [if_neg hcond] at h3
    simp at h3
  rw [if_pos hcond] at h3
  have hsg : sig = (((parts.map (fun v : ℕ => ((v : ZMod n)))).sum).val,
      P.xcoord (condNeg P c2.pubnonce_sum)) :=
    (Option.some.inj (congrArg Prod.fst h3)).symm
  have hc3 : c3 = { c2 with pubnonce_sum := condNeg P c2.pubnonce_sum } :=
    (congrArg Prod.snd h3).symm
  have hSne : c1.pubnonce_sum ≠ 0 := by
    intro hS0
    apply hS
    rw [hc3]
    show condNeg P c2.pubnonce_sum = 0
    rw [s3, hS0]
    unfold condNeg
    split
    · rfl
    · exact neg_zero
  refine ⟨?_, fun j hj => s7 j (by omega) hj⟩
  have hR : condNeg P c1.pubnonce_sum ≠ 0 := by
    rw [← s3]
    exact fun he => hS (by rw [hc3]; exact he)
  have hquadR : P.quad (condNeg P c1.pubnonce_sum) = true :=
    condNeg_quad P hG.quad_neg c1.pubnonce_sum hSne
  have hNlen : c1.n_sigs = (rosterOf n P seckeys).length := g1
  have hlen0 : (rosterOf n P seckeys).length ≠ 0 := by
    intro hn0
    apply hSne
    rw [g5]
    show ((List.range (rosterOf n P seckeys).length).map
      (fun j => smulZ (c1.secnonce.getD j 0) P.gen)).sum = 0
    rw [hn0, List.range_zero, List.map_nil, List.sum_nil]
  have hpkeq : c1.pubkeys = rosterOf n P seckeys := g2
  rw [verify_iff P hG.maxN_pos htor]
  have hHeq : computePrehash P c1.pubkeys (condNeg P c1.pubnonce_sum) msg =
      computePrehash P (rosterOf n P seckeys)
        (condNeg P c1.pubnonce_sum) msg := by rw [hpkeq]
  refine ⟨fun hnil => hlen0 (by rw [hnil]; rfl), ?_, ?_,
    condNeg P c1.pubnonce_sum, ?_, ?_, ?_⟩
  · rw [hsg]
    exact ZMod.val_lt _
  · rw [hsg]
    show P.xcoord (condNeg P c2.pubnonce_sum) < P.p
    rw [s3]
    exact hG.xcoord_lt_p _ hR
  · rw [hsg]
    show P.setXquad (P.xcoord (condNeg P c2.pubnonce_sum)) = _
    rw [s3]
    exact hG.xquad_round _ hR hquadR
  · intro j hj
    have hsome := s9 j (by rw [hNlen]; exact hj)
    rw [Nat.zero_add, hHeq] at hsome
    exact hsome
  · rw [hsg, ← hHeq]
    show smulZ ((((parts.map (fun v : ℕ => ((v : ZMod n)))).sum).val :
        ZMod n)) P.gen - _ = _
    rw [smulZ_val]
    have hparts2 : parts.map (fun v : ℕ => ((v : ZMod n))) =
        (List.range c1.n_sigs).map (fun t =>
          ((seckeys.getD t 0 : ZMod n) *
            challengeAt P (computePrehash P c1.pubkeys
              (condNeg P c1.pubnonce_sum) msg) t +
           (if P.quad c1.pubnonce_sum then c1.secnonce.getD t 0
            else -(c1.secnonce.getD t 0)))) := by
      rw [s8, List.map_map]
      apply List.map_congr_left
      intro t ht
      show ((((seckeys.getD (0 + t) 0 : ZMod n)) * _ + _).val : ZMod n) = _
      rw [ZMod.natCast_rightInverse _, Nat.zero_add]
    rw [hparts2, smulZ_list_sum htor, List.map_map]
    have hsplit : ((List.range c1.n_sigs).map
        ((fun a => smulZ a P.gen) ∘ (fun t =>
          ((seckeys.getD t 0 : ZMod n) *
            challengeAt P (computePrehash P c1.pubkeys
              (condNeg P c1.pubnonce_sum) msg) t +
           (if P.quad c1.pubnonce_sum then c1.secnonce.getD t 0
            else -(c1.secnonce.getD t 0)))))).sum =
        ((List.range c1.n_sigs).map (fun t =>
          smulZ (challengeAt (n := n) P (computePrehash P c1.pubkeys
            (condNeg P c1.pubnonce_sum) msg) t)
            (smulZ ((seckeys.getD t 0 : ZMod n)) P.gen))).sum +
        ((List.range c1.n_sigs).map (fun t =>
          smulZ (if P.quad c1.pubnonce_sum then c1.secnonce.getD t 0
            else -(c1.secnonce.getD t 0)) P.gen)).sum := by
      rw [← list_sum_map_add]
      apply congrArg List.sum
      apply List.map_congr_left
      intro t ht
      show smulZ (_ + _) P.gen = _
      rw [smulZ_add htor, mul_comm, smulZ_mul htor]
    rw [hsplit]
    have hcsum : ((List.range c1.n_sigs).map (fun t =>
        smulZ (challengeAt (n := n) P (computePrehash P c1.pubkeys
          (condNeg P c1.pubnonce_sum) msg) t)
          (smulZ ((seckeys.getD t 0 : ZMod n)) P.gen))).sum =
        challengeSum n P (computePrehash P c1.pubkeys
          (condNeg P c1.pubnonce_sum) msg) (rosterOf n P seckeys) := by
      rw [challengeSum, ← hNlen]
      apply congrArg List.sum
      apply List.map_congr_left
      intro t ht
      rw [List.mem_range] at ht
      congr 1
      rw [rosterOf, getD_map_lt _ seckeys t 0 _ (by
        rw [hNlen, rosterOf, List.length_map] at ht
        exact ht)]
    rw [hcsum]
    have hwsum : ((List.range c1.n_sigs).map (fun t =>
        smulZ (if P.quad c1.pubnonce_sum then c1.secnonce.getD t 0
          else -(c1.secnonce.getD t 0)) P.gen)).sum =
        condNeg P c1.pubnonce_sum := by
      by_cases hq : P.quad c1.pubnonce_sum = true
      · have hptw : ((List.range c1.n_sigs).map (fun t =>
            smulZ (if P.quad c1.pubnonce_sum then c1.secnonce.getD t 0
              else -(c1.secnonce.getD t 0)) P.gen)).sum =
            ((List.range c1.n_sigs).map (fun j =>
              smulZ (c1.secnonce.getD j 0) P.gen)).sum := by
          apply congrArg List.sum
          apply List.map_congr_left
          intro t ht
          simp only [if_pos hq]
        rw [hptw, show condNeg P c1.pubnonce_sum = c1.pubnonce_sum by
          unfold condNeg; rw [if_pos hq], g5, ← g1]
      · have hptw : ((List.range c1.n_sigs).map (fun t =>
            smulZ (if P.quad c1.pubnonce_sum then c1.secnonce.getD t 0
              else -(c1.secnonce.getD t 0)) P.gen)).sum =
            ((List.range c1.n_sigs).map (fun j =>
              -(smulZ (c1.secnonce.getD j 0) P.gen))).sum := by
          apply congrArg List.sum
          apply List.map_congr_left
          intro t ht
          simp only [if_neg hq, smulZ_neg htor]
        rw [hptw, list_sum_map_neg,
          show condNeg P c1.pubnonce_sum = -c1.pubnonce_sum by
            unfold condNeg; rw [if_neg hq], g5, ← g1]
    rw [hwsum]
    abel

/-- C1: full-protocol round trip: for any roster of secret/public key
pairs, any message and any seed, when the protocol (generate_nonce on every
index, partial_sign on every index with the matching secret key, combine)
returns a 64-byte signature — with a non-identity aggregate nonce, the only
case the C code can serialise — verify accepts it against the roster. -/
theorem c1_full_protocol_round_trip [DecidableEq G] (P : Prims G RS)
    (hG : Good P n) (seckeys msg seed : List ℕ) (sig : ℕ × ℕ)
    (cF : Ctx n G RS)
    (hrun : runProtocol n P seckeys msg seed = some (sig, cF))
    (hS : cF.pubnonce_sum ≠ 0) :
    verify (n := n) P sig msg (rosterOf n P seckeys) = true := by
  simp only [runProtocol] at hrun
  cases hgen : genAllNonces P (contextCreate n P (rosterOf n P seckeys) seed) with
  | mk b c1 =>
    cases b with
    | false =>
      simp only [hgen] at hrun
      exact Option.noConfusion hrun
    | true =>
      simp only [hgen] at hrun
      cases hsig2 : signAllKeys P msg seckeys c1 with
      | mk r c2 =>
        cases r with
        | none =>
          simp only [hsig2] at hrun
          exact Option.noConfusion hrun
        | some parts =>
          simp only [hsig2] at hrun
          cases hcomb : combineSignatures P c2 parts with
          | mk r2 c3 =>
            cases r2 with
            | none =>
              simp only [hcomb] at hrun
              exact Option.noConfusion hrun
            | some sg =>
              simp only [hcomb] at hrun
              obtain ⟨hsg, hc3⟩ : sg = sig ∧ c3 = cF := by
                have := Option.some.inj hrun
                exact ⟨congrArg Prod.fst this, congrArg Prod.snd this⟩
              rw [hsg, hc3] at hcomb
              exact (pipeline_verify P hG seckeys msg seed c1 c2 cF parts sig
                hgen hsig2 hcomb hS).1

theorem c1_witness :
    verify (n := 5) toyP (0, 2) [3] (rosterOf 5 toyP [1, 2]) = true :=
  c1_full_protocol_round_trip toyP toyGood [1, 2] [3] [0] (0, 2)
    ⟨[Progress.signed, Progress.signed], [1, 2], [4, 3], 2, 2, 2⟩
    (by decide) (by decide)

/-- C2: verify(sig64, msg32, roster) returns true iff the roster is
non-empty, the s half parses as a scalar < n, the x half is a canonical
base-field encoding that is the x-coordinate of some square-y curve point
R, every per-index challenge parses as a scalar < n, and
s·G − Σ e_j·P_j equals R; any parse or recovery failure yields false. -/
theorem c2_verify_characterisation [DecidableEq G] (P : Prims G RS)
    (hmax : 1 ≤ P.maxN) (htor : ∀ Q : G, (n : ℕ) • Q = 0)
    (sig : ℕ × ℕ) (msg : List ℕ) (pks : List G) :
    verify (n := n) P sig msg pks = true ↔
      pks ≠ [] ∧ sig.1 < n ∧ sig.2 < P.p ∧
      ∃ R, P.setXquad sig.2 = some R ∧
        (∀ j, j < pks.length →
          (computeSighash (n := n) P (computePrehash P pks R msg) j).isSome
            = true) ∧
        smulZ ((sig.1 : ZMod n)) P.gen -
          challengeSum n P (computePrehash P pks R msg) pks = R :=
  verify_iff P hmax htor sig msg pks

theorem c2_witness :
    verify (n := 5) toyP (0, 2) [3] [1, 2] = true ↔
      ([1, 2] : List (ZMod 5)) ≠ [] ∧ (0, 2).1 < 5 ∧ (0, 2).2 < toyP.p ∧
      ∃ R, toyP.setXquad (0, 2).2 = some R ∧
        (∀ j, j < ([1, 2] : List (ZMod 5)).length →
          (computeSighash (n := 5) toyP
            (computePrehash toyP [1, 2] R [3]) j).isSome = true) ∧
        smulZ ((((0, 2).1 : ℕ) : ZMod 5)) toyP.gen -
          challengeSum 5 toyP (computePrehash toyP [1, 2] R [3]) [1, 2] = R :=
  c2_verify_characterisation toyP (by decide) (by decide) (0, 2) [3] [1, 2]

/-- C3 counterexample: combine is not read-only on the session.  On a
session whose pubnonce_sum lacks square y in the toy model, a (successful)
combine call negates pubnonce_sum in place (main_impl.h:210-211), so a
session field does change. -/
theorem c3_counterexample :
    (combineSignatures toyP (⟨[], [], [], 3, 0, 0⟩ : Ctx 5 (ZMod 5) ℕ)
      []).1.isSome = true ∧
    (combineSignatures toyP (⟨[], [], [], 3, 0, 0⟩ : Ctx 5 (ZMod 5) ℕ)
      []).2.pubnonce_sum ≠
      (⟨[], [], [], 3, 0, 0⟩ : Ctx 5 (ZMod 5) ℕ).pubnonce_sum := by
  decide

/-- C3 (amended): combine leaves every session field except pubnonce_sum
unchanged; a successful call replaces pubnonce_sum by its square-y
representative (negating it in place when it lacks square y), and a failing
call leaves the whole session unchanged. -/
theorem c3_combine_frame (P : Prims G RS) (c : Ctx n G RS) (parts : List ℕ) :
    (combineSignatures P c parts).2.progress = c.progress ∧
    (combineSignatures P c parts).2.pubkeys = c.pubkeys ∧
    (combineSignatures P c parts).2.secnonce = c.secnonce ∧
    (combineSignatures P c parts).2.n_sigs = c.n_sigs ∧
    (combineSignatures P c parts).2.rng = c.rng ∧
    (combineSignatures P c parts).2.pubnonce_sum =
      (if (combineSignatures P c parts).1.isSome then condNeg P c.pubnonce_sum
       else c.pubnonce_sum) := by
  rw [combine_eq]
  by_cases hcond : parts.length = c.n_sigs ∧ ∀ v ∈ parts, v < n
  · rw [if_pos hcond]
    exact ⟨rfl, rfl, rfl, rfl, rfl, by simp⟩
  · rw [if_neg hcond]
    exact ⟨rfl, rfl, rfl, rfl, rfl, by simp⟩

theorem c3_frame_witness :
    (combineSignatures toyP (⟨[], [], [], 3, 0, 0⟩ : Ctx 5 (ZMod 5) ℕ)
      []).2.progress = (⟨[], [], [], 3, 0, 0⟩ : Ctx 5 (ZMod 5) ℕ).progress ∧
    (combineSignatures toyP (⟨[], [], [], 3, 0, 0⟩ : Ctx 5 (ZMod 5) ℕ)
      []).2.pubkeys = (⟨[], [], [], 3, 0, 0⟩ : Ctx 5 (ZMod 5) ℕ).pubkeys ∧
    (combineSignatures toyP (⟨[], [], [], 3, 0, 0⟩ : Ctx 5 (ZMod 5) ℕ)
      []).2.secnonce = (⟨[], [], [], 3, 0, 0⟩ : Ctx 5 (ZMod 5) ℕ).secnonce ∧
    (combineSignatures toyP (⟨[], [], [], 3, 0, 0⟩ : Ctx 5 (ZMod 5) ℕ)
      []).2.n_sigs = (⟨[], [], [], 3, 0, 0⟩ : Ctx 5 (ZMod 5) ℕ).n_sigs ∧
    (combineSignatures toyP (⟨[], [], [], 3, 0, 0⟩ : Ctx 5 (ZMod 5) ℕ)
      []).2.rng = (⟨[], [], [], 3, 0, 0⟩ : Ctx 5 (ZMod 5) ℕ).rng ∧
    (combineSignatures toyP (⟨[], [], [], 3, 0, 0⟩ : Ctx 5 (ZMod 5) ℕ)
      []).2.pubnonce_sum =
      (if (combineSignatures toyP (⟨[], [], [], 3, 0, 0⟩ : Ctx 5 (ZMod 5) ℕ)
        []).1.isSome then
        condNeg toyP (⟨[], [], [], 3, 0, 0⟩ : Ctx 5 (ZMod 5) ℕ).pubnonce_sum
       else (⟨[], [], [], 3, 0, 0⟩ : Ctx 5 (ZMod 5) ℕ).pubnonce_sum) :=
  c3_combine_frame toyP ⟨[], [], [], 3, 0, 0⟩ []

/-- C4 counterexample: with the toy primitives, seed [0] and secret keys
[1, 2], the aggregate public nonce (3) lacks square y at signing time;
partial_sign succeeds on both indices, the combined signature (0, 2)
verifies, yet the number of stored secret nonces that retain their original
sign is 0, not exactly 1: the step-2 rule negates all N of them. -/
theorem c4_counterexample :
    genAllNonces toyP (contextCreate 5 toyP (rosterOf 5 toyP [1, 2]) [0]) =
      (true, (⟨[Progress.ours, Progress.ours], [1, 2], [1, 2], 3, 2, 2⟩ :
        Ctx 5 (ZMod 5) ℕ)) ∧
    toyP.quad (3 : ZMod 5) = false ∧
    signAllKeys toyP [3] [1, 2]
      (⟨[Progress.ours, Progress.ours], [1, 2], [1, 2], 3, 2, 2⟩ :
        Ctx 5 (ZMod 5) ℕ) =
      (some [2, 3], (⟨[Progress.signed, Progress.signed], [1, 2], [4, 3],
        3, 2, 2⟩ : Ctx 5 (ZMod 5) ℕ)) ∧
    combineSignatures toyP
      (⟨[Progress.signed, Progress.signed], [1, 2], [4, 3], 3, 2, 2⟩ :
        Ctx 5 (ZMod 5) ℕ) [2, 3] =
      (some (0, 2), (⟨[Progress.signed, Progress.signed], [1, 2], [4, 3],
        2, 2, 2⟩ : Ctx 5 (ZMod 5) ℕ)) ∧
    verify (n := 5) toyP (0, 2) [3] (rosterOf 5 toyP [1, 2]) = true ∧
    ((List.range 2).countP (fun i => decide
      ((⟨[Progress.signed, Progress.signed], [1, 2], [4, 3], 3, 2, 2⟩ :
        Ctx 5 (ZMod 5) ℕ).secnonce.getD i 0 =
       (⟨[Progress.ours, Progress.ours], [1, 2], [1, 2], 3, 2, 2⟩ :
        Ctx 5 (ZMod 5) ℕ).secnonce.getD i 0))) = 0 := by
  decide

/-- C4 (amended): QR-flip exercise: for a run whose pubnonce_sum lacks
square y at signing time, partial_sign on all N indices still produces
(after combine) a signature that verifies, and afterwards none of the N
stored secret nonces retains its original sign: every one has been negated
by the step-2 flip rule. -/
theorem c4_qr_flip [DecidableEq G] (P : Prims G RS) (hG : Good P n)
    (seckeys msg seed : List ℕ) (c1 c2 c3 : Ctx n G RS) (parts : List ℕ)
    (sig : ℕ × ℕ)
    (h1 : genAllNonces P (contextCreate n P (rosterOf n P seckeys) seed) =
      (true, c1))
    (hq : P.quad c1.pubnonce_sum = false)
    (h2 : signAllKeys P msg seckeys c1 = (some parts, c2))
    (h3 : combineSignatures P c2 parts = (some sig, c3))
    (hS : c3.pubnonce_sum ≠ 0) :
    verify (n := n) P sig msg (rosterOf n P seckeys) = true ∧
    ∀ j, j < c1.n_sigs → c2.secnonce.getD j 0 = -(c1.secnonce.getD j 0) := by
  obtain ⟨hv, hflip⟩ := pipeline_verify P hG seckeys msg seed c1 c2 c3 parts
    sig h1 h2 h3 hS
  refine ⟨hv, fun j hj => ?_⟩
  have hj2 := hflip j hj
  rwa [if_neg (by rw [hq]; exact Bool.false_ne_true)] at hj2

theorem c4_witness :
    verify (n := 5) toyP (0, 2) [3] (rosterOf 5 toyP [1, 2]) = true ∧
    ∀ j, j < (⟨[Progress.ours, Progress.ours], [1, 2], [1, 2], 3, 2, 2⟩ :
        Ctx 5 (ZMod 5) ℕ).n_sigs →
      (⟨[Progress.signed, Progress.signed], [1, 2], [4, 3], 3, 2, 2⟩ :
        Ctx 5 (ZMod 5) ℕ).secnonce.getD j 0 =
      -((⟨[Progress.ours, Progress.ours], [1, 2], [1, 2], 3, 2, 2⟩ :
        Ctx 5 (ZMod 5) ℕ).secnonce.getD j 0) :=
  c4_qr_flip toyP toyGood [1, 2] [3] [0]
    ⟨[Progress.ours, Progress.ours], [1, 2], [1, 2], 3, 2, 2⟩
    ⟨[Progress.signed, Progress.signed], [1, 2], [4, 3], 3, 2, 2⟩
    ⟨[Progress.signed, Progress.signed], [1, 2], [4, 3], 2, 2, 2⟩
    [2, 3] (0, 2) (by decide) (by decide) (by decide) (by decide) (by decide)

/-- C5: the per-index challenge digest is SHA256(varint7(i) ‖ H0) read as a
big-endian scalar: the index bytes emitted by the while loop are exactly
the little-endian base-128 digits of i (7-bit limbs with the top bit
cleared, nothing for i = 0, so e_0 = SHA256(H0)), and the derivation fails
(returns none) iff the digest, as an integer, is ≥ n. -/
theorem c5_sighash_encoding (P : Prims G RS) (h : List ℕ) (i : ℕ) :
    idxBytes i = Nat.digits 128 i ∧
    idxBytes 0 = [] ∧
    computeSighash (n := n) P h i =
      (if n ≤ beVal (P.sha256 (Nat.digits 128 i ++ h)) then none
       else some ((beVal (P.sha256 (Nat.digits 128 i ++ h)) : ZMod n))) :=
  ⟨idxBytes_eq_digits i, by rw [idxBytes_eq_digits, Nat.digits_zero],
    computeSighash_eq P h i⟩

theorem c5_witness :
    idxBytes 1 = Nat.digits 128 1 ∧
    idxBytes 0 = [] ∧
    computeSighash (n := 5) toyP [2] 1 =
      (if 5 ≤ beVal (toyP.sha256 (Nat.digits 128 1 ++ [2])) then none
       else some ((beVal (toyP.sha256 (Nat.digits 128 1 ++ [2])) : ZMod 5))) :=
  c5_sighash_encoding toyP [2] 1

/-- C6: SIGNED is terminal: once progress[i] = SIGNED, no operation
(generate_nonce, partial_sign at any index, combine) changes progress[i];
in particular a second partial_sign on index i returns failure with the
session unchanged and produces no second partial. -/
theorem c6_signed_terminal (P : Prims G RS) (c : Ctx n G RS) (i : ℕ)
    (hi : c.progress.getD i Progress.unknown = Progress.signed) :
    (∀ j, ((generateNonce P c j).2).progress.getD i Progress.unknown =
      Progress.signed) ∧
    (∀ msg sk j, ((partSign P c msg sk j).2).progress.getD i Progress.unknown =
      Progress.signed) ∧
    (∀ msg sk, partSign P c msg sk i = (none, c)) ∧
    (∀ parts, ((combineSignatures P c parts).2).progress = c.progress) := by
  refine ⟨?_, ?_, ?_, ?_⟩
  · intro j
    unfold generateNonce
    by_cases hj : j < c.n_sigs
    · rw [if_pos hj]
      by_cases hu : c.progress.getD j Progress.unknown ≠ Progress.unknown
      · rw [if_pos hu]
        exact hi
      · rw [if_neg hu]
        have hju : c.progress.getD j Progress.unknown = Progress.unknown :=
          not_not.mp hu
        have hji : j ≠ i := fun he => by
          rw [he, hi] at hju
          exact Progress.noConfusion hju
        cases hdraw : drawNonce (n := n) P rngFuel c.rng with
        | none =>
          simp only [hdraw]
          exact hi
        | some kr =>
          obtain ⟨k, rng2⟩ := kr
          simp only [hdraw]
          by_cases hq : P.quad (smulZ k P.gen) = true
          · rw [if_pos hq]
            show (c.progress.set j Progress.ours).getD i Progress.unknown = _
            rw [getD_set_ne c.progress hji]
            exact hi
          · rw [if_neg hq]
            show (c.progress.set j Progress.ours).getD i Progress.unknown = _
            rw [getD_set_ne c.progress hji]
            exact hi
    · rw [if_neg hj]
      exact hi
  · intro msg sk j
    unfold partSign
    by_cases hj : j < c.n_sigs
    · rw [if_pos hj]
      by_cases hany : ((List.range c.n_sigs).any (fun t =>
          decide (c.progress.getD t Progress.unknown = Progress.unknown))) = true
      · rw [if_pos hany]
        exact hi
      · rw [if_neg hany]
        by_cases hours : c.progress.getD j Progress.unknown ≠ Progress.ours
        · rw [if_pos hours]
          exact hi
        · rw [if_neg hours]
          have hjo : c.progress.getD j Progress.unknown = Progress.ours :=
            not_not.mp hours
          have hji : j ≠ i := fun he => by
            rw [he, hi] at hjo
            exact Progress.noConfusion hjo
          cases hsg : computeSighash (n := n) P
              (computePrehash P c.pubkeys (condNeg P c.pubnonce_sum) msg) j with
          | none =>
            simp only [hsg]
            show (flipCtx P c j).progress.getD i Progress.unknown = _
            rw [flipCtx_progress]
            exact hi
          | some e =>
            simp only [hsg]
            by_cases hsk : (scalarSetB32 n sk).2 = true
            · rw [if_pos hsk]
              show (flipCtx P c j).progress.getD i Progress.unknown = _
              rw [flipCtx_progress]
              exact hi
            · rw [if_neg hsk]
              show ((flipCtx P c j).progress.set j Progress.signed).getD i
                Progress.unknown = _
              rw [getD_set_ne _ hji, flipCtx_progress]
              exact hi
    · rw [if_neg hj]
      exact hi
  · intro msg sk
    unfold partSign
    by_cases hii : i < c.n_sigs
    · rw [if_pos hii]
      by_cases hany : ((List.range c.n_sigs).any (fun t =>
          decide (c.progress.getD t Progress.unknown = Progress.unknown))) = true
      · rw [if_pos hany]
      · rw [if_neg hany,
          if_pos (show c.progress.getD i Progress.unknown ≠ Progress.ours by
            rw [hi]
            exact fun he => Progress.noConfusion he)]
    · rw [if_neg hii]
  · intro parts
    rw [combine_eq]
    by_cases hcond : parts.length = c.n_sigs ∧ ∀ v ∈ parts, v < n
    · rw [if_pos hcond]
    · rw [if_neg hcond]

theorem c6_witness :
    ((generateNonce toyP
      (⟨[Progress.signed], [1], [1], 1, 1, 0⟩ : Ctx 5 (ZMod 5) ℕ)
      0).2).progress.getD 0 Progress.unknown = Progress.signed ∧
    ((partSign toyP (⟨[Progress.signed], [1], [1], 1, 1, 0⟩ :
      Ctx 5 (ZMod 5) ℕ) [7] 4 0).2).progress.getD 0 Progress.unknown =
      Progress.signed ∧
    partSign toyP (⟨[Progress.signed], [1], [1], 1, 1, 0⟩ :
      Ctx 5 (ZMod 5) ℕ) [7] 4 0 =
      (none, ⟨[Progress.signed], [1], [1], 1, 1, 0⟩) ∧
    ((combineSignatures toyP (⟨[Progress.signed], [1], [1], 1, 1, 0⟩ :
      Ctx 5 (ZMod 5) ℕ) [2]).2).progress =
      (⟨[Progress.signed], [1], [1], 1, 1, 0⟩ :
        Ctx 5 (ZMod 5) ℕ).progress :=
  ⟨(c6_signed_terminal toyP ⟨[Progress.signed], [1], [1], 1, 1, 0⟩ 0
      (by decide)).1 0,
   (c6_signed_terminal toyP ⟨[Progress.signed], [1], [1], 1, 1, 0⟩ 0
      (by decide)).2.1 [7] 4 0,
   (c6_signed_terminal toyP ⟨[Progress.signed], [1], [1], 1, 1, 0⟩ 0
      (by decide)).2.2.1 [7] 4,
   (c6_signed_terminal toyP ⟨[Progress.signed], [1], [1], 1, 1, 0⟩ 0
      (by decide)).2.2.2 [2]⟩

/-- C7: after every successful generate_nonce at index i, secnonce[i]·G
equals the conditionally negated square-y representative of the originally
drawn point k·G (the point itself when it has square y, its negation
otherwise), pubnonce_sum has been incremented by exactly that square-y
representative, and that summand has square y. -/
theorem c7_nonce_invariant (P : Prims G RS) (hG : Good P n)
    (c c2 : Ctx n G RS) (i : ℕ) (hlen : c.n_sigs ≤ c.secnonce.length)
    (h : generateNonce P c i = (true, c2)) :
    ∃ k rng2, drawNonce (n := n) P rngFuel c.rng = some (k, rng2) ∧
      smulZ (c2.secnonce.getD i 0) P.gen = condNeg P (smulZ k P.gen) ∧
      c2.pubnonce_sum = c.pubnonce_sum + condNeg P (smulZ k P.gen) ∧
      P.quad (condNeg P (smulZ k P.gen)) = true := by
  obtain ⟨hi, hu, k, rng2, hdraw, hk0, hc2⟩ := generateNonce_true P c c2 i h
  subst hc2
  have htor := hG.torsion
  have hRne : smulZ k P.gen ≠ 0 := fun he => hk0 (hG.gen_order k he)
  refine ⟨k, rng2, hdraw, ?_, ?_, condNeg_quad P hG.quad_neg _ hRne⟩
  · show smulZ ((c.secnonce.set i
      (if P.quad (smulZ k P.gen) then k else -k)).getD i 0) P.gen = _
    rw [getD_set_self c.secnonce i (by omega)]
    unfold condNeg
    by_cases hq : P.quad (smulZ k P.gen) = true
    · rw [if_pos hq, if_pos hq]
    · rw [if_neg hq, if_neg hq, smulZ_neg htor]
  · show c.pubnonce_sum + _ = c.pubnonce_sum + condNeg P (smulZ k P.gen)
    unfold condNeg
    by_cases hq : P.quad (smulZ k P.gen) = true
    · rw [if_pos hq]
    · rw [if_neg hq]

theorem c7_witness :
    ∃ k rng2, drawNonce (n := 5) toyP rngFuel
      (⟨[Progress.unknown], [1], [0], 0, 1, 0⟩ :
        Ctx 5 (ZMod 5) ℕ).rng = some (k, rng2) ∧
      smulZ ((⟨[Progress.ours], [1], [1], 1, 1, 1⟩ :
        Ctx 5 (ZMod 5) ℕ).secnonce.getD 0 0) toyP.gen =
        condNeg toyP (smulZ k toyP.gen) ∧
      (⟨[Progress.ours], [1], [1], 1, 1, 1⟩ :
        Ctx 5 (ZMod 5) ℕ).pubnonce_sum =
        (⟨[Progress.unknown], [1], [0], 0, 1, 0⟩ :
          Ctx 5 (ZMod 5) ℕ).pubnonce_sum + condNeg toyP (smulZ k toyP.gen) ∧
      toyP.quad (condNeg toyP (smulZ k toyP.gen)) = true :=
  c7_nonce_invariant toyP toyGood ⟨[Progress.unknown], [1], [0], 0, 1, 0⟩
    ⟨[Progress.ours], [1], [1], 1, 1, 1⟩ 0 (by decide) (by decide)

/-- C8: combine(session, sig64, partials, count) fails iff the count
differs from the session's N or some partial encodes an integer ≥ n —
regardless of the progress states, which it never reads; on success it
writes Σ partials mod n into bytes 0..31 and the normalised x-coordinate of
the square-y representative of pubnonce_sum into bytes 32..63, storing that
representative back into the session. -/
theorem c8_combine_spec (P : Prims G RS) (c : Ctx n G RS) (parts : List ℕ) :
    combineSignatures P c parts =
      if parts.length = c.n_sigs ∧ ∀ v ∈ parts, v < n then
        (some (((parts.map (fun v : ℕ => ((v : ZMod n)))).sum).val,
               P.xcoord (condNeg P c.pubnonce_sum)),
         { c with pubnonce_sum := condNeg P c.pubnonce_sum })
      else (none, c) :=
  combine_eq P c parts

theorem c8_witness :
    combineSignatures toyP
      (⟨[], [], [], 3, 0, 0⟩ : Ctx 5 (ZMod 5) ℕ) [] =
      (if ([] : List ℕ).length =
          (⟨[], [], [], 3, 0, 0⟩ : Ctx 5 (ZMod 5) ℕ).n_sigs ∧
          ∀ v ∈ ([] : List ℕ), v < 5 then
        (some (((([] : List ℕ).map (fun v : ℕ => ((v : ZMod 5)))).sum).val,
               toyP.xcoord (condNeg toyP
                 (⟨[], [], [], 3, 0, 0⟩ : Ctx 5 (ZMod 5) ℕ).pubnonce_sum)),
         { (⟨[], [], [], 3, 0, 0⟩ : Ctx 5 (ZMod 5) ℕ) with
            pubnonce_sum := condNeg toyP
              (⟨[], [], [], 3, 0, 0⟩ : Ctx 5 (ZMod 5) ℕ).pubnonce_sum })
      else (none, ⟨[], [], [], 3, 0, 0⟩)) :=
  c8_combine_spec toyP ⟨[], [], [], 3, 0, 0⟩ []

/-- C9: generate_nonce(session, i) requires i < N and progress[i] =
UNKNOWN; if either condition fails it returns false and leaves the session
entirely unchanged (no progress, secnonce, pubnonce_sum or RNG-state
change): both gates return before any mutation. -/
theorem c9_generate_nonce_gate (P : Prims G RS) (c : Ctx n G RS) (i : ℕ)
    (h : c.n_sigs ≤ i ∨
      c.progress.getD i Progress.unknown ≠ Progress.unknown) :
    generateNonce P c i = (false, c) := by
  unfold generateNonce
  rcases h with h | h
  · rw [if_neg (by omega)]
  · by_cases hi : i < c.n_sigs
    · rw [if_pos hi, if_pos h]
    · rw [if_neg hi]

theorem c9_witness :
    generateNonce toyP
      (⟨[Progress.signed], [1], [1], 1, 1, 0⟩ : Ctx 5 (ZMod 5) ℕ) 0 =
      (false, ⟨[Progress.signed], [1], [1], 1, 1, 0⟩) :=
  c9_generate_nonce_gate toyP ⟨[Progress.signed], [1], [1], 1, 1, 0⟩ 0
    (Or.inr (by decide))

/-- C10: combine is idempotent on its output: a second call on the session
returned by a first call, with the same partials, returns the same result
and writes the same 64 bytes, because the first call replaced pubnonce_sum
by its square-y representative in place and that representative is a fixed
point of the conditional negation. -/
theorem c10_combine_idempotent (P : Prims G RS)
    (hqn : ∀ Q : G, Q ≠ 0 → P.quad Q = false → P.quad (-Q) = true)
    (c : Ctx n G RS) (parts : List ℕ) :
    combineSignatures P (combineSignatures P c parts).2 parts =
      combineSignatures P c parts := by
  rw [combine_eq P c parts]
  by_cases hcond : parts.length = c.n_sigs ∧ ∀ v ∈ parts, v < n
  · rw [if_pos hcond]
    show combineSignatures P
      { c with pubnonce_sum := condNeg P c.pubnonce_sum } parts = _
    rw [combine_eq, if_pos (show parts.length =
        ({ c with pubnonce_sum := condNeg P c.pubnonce_sum } :
          Ctx n G RS).n_sigs ∧ ∀ v ∈ parts, v < n from ⟨hcond.1, hcond.2⟩)]
    show (some (_, P.xcoord (condNeg P (condNeg P c.pubnonce_sum))),
      ({ c with pubnonce_sum := condNeg P (condNeg P c.pubnonce_sum) } :
        Ctx n G RS)) = _
    rw [condNeg_idem P hqn]
  · rw [if_neg hcond]
    show combineSignatures P c parts = _
    rw [combine_eq, if_neg hcond]

theorem c10_witness :
    combineSignatures toyP
      (combineSignatures toyP (⟨[], [], [], 3, 0, 0⟩ : Ctx 5 (ZMod 5) ℕ)
        []).2 [] =
      combineSignatures toyP (⟨[], [], [], 3, 0, 0⟩ : Ctx 5 (ZMod 5) ℕ) [] :=
  c10_combine_idempotent toyP (by decide) ⟨[], [], [], 3, 0, 0⟩ []

end Aggsig
